import Mathlib

/-!
Verification of the BookVision retrieval core (src/app/embed_store.py,
src/app/text_utils.py, src/app/cache.py, src/app/ingest.py).

Modelling conventions, used throughout:
* A Python `str` is modelled as `List Char` (`PyStr`), so that every string
  operation is a structural recursion the kernel can evaluate.
* `float` vectors are modelled as lists of rationals (`Vec`): every IEEE
  float is a rational number, and none of the verified properties depend on
  rounding.  The mathematical content of `_normalize` (unit L2 norm) is
  modelled separately over the reals, where the square root lives.
* A Python function that can only `return` (it contains no `raise`) is
  embedded as a total function; a function with an explicit failure path is
  embedded with an `Except` result, one `.ok` per `return`.
* Progress callbacks: the model records the sequence of percentages passed
  to the callback (the message strings decide nothing that is verified).
* Bounded-recursion helpers take a fuel argument initialised to the input
  length, which is always sufficient; this keeps every definition
  structurally recursive and kernel-computable.
-/

/-- Python strings, modelled as lists of characters. -/
abbrev PyStr := List Char

/-- The characters Python's default str.strip removes: space, tab, newline,
carriage return, vertical tab, form feed. -/
def pyWS (c : Char) : Bool :=
  c = ' ' || c = '\t' || c = '\n' || c = '\r' || c = Char.ofNat 11 || c = Char.ofNat 12

/-- Python str.strip(): drop whitespace from both ends. -/
def pyStripL (cs : PyStr) : PyStr :=
  ((cs.dropWhile pyWS).reverse.dropWhile pyWS).reverse

/-- Python truthiness test `not s or not s.strip()`: the string is empty or
whitespace-only. -/
def isBlankL (cs : PyStr) : Bool := pyStripL cs = []

/-- Sentence-terminal characters of the regex [.!?]. -/
def isSentEnd (c : Char) : Bool := c = '.' || c = '!' || c = '?'

/-- Python text.split on the fixed separator two-newlines: leftmost,
non-overlapping occurrences, keeping empty pieces (they are filtered by the
caller).  Fuel-structured; the initial fuel (the input length) never runs
out. -/
def splitParasGo (fuel : Nat) (acc : PyStr) (cs : PyStr) : List PyStr :=
  match fuel, cs with
  | _, [] => [acc.reverse]
  | 0, rest => [acc.reverse ++ rest]
  | fuel + 1, c :: rest =>
    match c, rest with
    | '\n', '\n' :: rest' => acc.reverse :: splitParasGo fuel [] rest'
    | c, rest => splitParasGo fuel (c :: acc) rest

def splitParas (cs : PyStr) : List PyStr := splitParasGo cs.length [] cs

/-- Embedding of re.split with the capture pattern ([.!?]+ whitespace+):
the result alternates text pieces and separator pieces, starting and ending
with a (possibly empty) text piece.  A run of sentence terminators not
followed by whitespace matches nowhere inside the run, so the scan resumes
after it.  Fuel-structured as above. -/
def reSplitSentGo (fuel : Nat) (acc : PyStr) (cs : PyStr) : List PyStr :=
  match fuel, cs with
  | _, [] => [acc.reverse]
  | 0, rest => [acc.reverse ++ rest]
  | fuel + 1, c :: rest =>
    if isSentEnd c then
      let run := c :: rest.takeWhile isSentEnd
      let rest1 := rest.dropWhile isSentEnd
      let ws := rest1.takeWhile pyWS
      if ws = [] then reSplitSentGo fuel (run.reverse ++ acc) rest1
      else acc.reverse :: (run ++ ws) :: reSplitSentGo fuel [] (rest1.dropWhile pyWS)
    else reSplitSentGo fuel (c :: acc) rest

def reSplitSent (cs : PyStr) : List PyStr := reSplitSentGo cs.length [] cs

/-- The loop for i in range(0, len(sentences), 2) recombining each text
piece with the separator that followed it. -/
def pairUp : List PyStr → List PyStr
  | [] => []
  | [t] => [t]
  | t :: s :: rest => (t ++ s) :: pairUp rest

/-- Maximal non-whitespace runs of a string (the words seen by textwrap). -/
def wordsOf : PyStr → List PyStr
  | [] => []
  | c :: rest =>
    let ws := wordsOf rest
    if pyWS c then ws
    else
      match rest, ws with
      | [], _ => [[c]]
      | d :: _, w :: ws' => if pyWS d then [c] :: ws else (c :: w) :: ws'
      | _ :: _, [] => [[c]]

/-- Greedy line filling: words are packed into lines of at most width
characters separated by single spaces; a word longer than width gets a line
of its own (break_long_words=False). -/
def wrapGreedy (width : Nat) : List PyStr → PyStr → List PyStr
  | [], cur => if cur = [] then [] else [cur]
  | w :: ws, cur =>
    if cur = [] then wrapGreedy width ws w
    else if cur.length + 1 + w.length ≤ width then wrapGreedy width ws (cur ++ [' '] ++ w)
    else cur :: wrapGreedy width ws w

/-- Modelled from the Python standard library textwrap.wrap with
break_long_words=False and break_on_hyphens=False: whitespace is normalised
to spaces and words are wrapped greedily at word boundaries.  (Runs of
whitespace inside a line are collapsed to one space in the model; the
caller strips and filters every produced piece, so no verified property
depends on this.) -/
def pyWrap (width : Nat) (s : PyStr) : List PyStr :=
  wrapGreedy width (wordsOf (s.map (fun c => if pyWS c then ' ' else c))) []

/-- The sentence-accumulation loop of _chunk_text: grow the current chunk
while it stays within max_chars; on overflow flush the stripped current
chunk, force-wrapping an oversized sentence at word boundaries. -/
def sentLoop (maxChars : Nat) : PyStr → List PyStr → List PyStr
  | cur, [] => if isBlankL cur then [] else [pyStripL cur]
  | cur, s :: rest =>
    if cur.length + s.length ≤ maxChars then sentLoop maxChars (cur ++ s) rest
    else
      (if isBlankL cur then [] else [pyStripL cur]) ++
      (if maxChars < s.length then
        ((pyWrap maxChars s).map pyStripL).filter (fun w => w ≠ []) ++ sentLoop maxChars [] rest
      else sentLoop maxChars s rest)

/-- Embedding of _chunk_text (src/app/text_utils.py, lines 14-52): split on
blank lines, keep short paragraphs whole, split long paragraphs at sentence
boundaries, finally drop every chunk whose stripped length is below 50. -/
def chunk_text (text : PyStr) (maxChars : Nat := 800) : List PyStr :=
  if isBlankL text then []
  else
    let paragraphs := ((splitParas text).map pyStripL).filter (fun p => p ≠ [])
    let chunks := (paragraphs.map (fun para =>
      if para.length ≤ maxChars then
        (if isBlankL para then [] else [para])
      else
        sentLoop maxChars [] (pairUp (reSplitSent para)))).flatten
    chunks.filter (fun c => 50 ≤ (pyStripL c).length)

/-- Carriage returns become newlines (first substitution of clean_text). -/
def crToNl (cs : PyStr) : PyStr := cs.map (fun c => if c = '\r' then '\n' else c)

def emitNl (n : Nat) : PyStr := if 3 ≤ n then ['\n', '\n'] else List.replicate n '\n'

/-- Runs of three or more newlines collapse to exactly two. -/
def collapseNlGo : Nat → PyStr → PyStr
  | n, [] => emitNl n
  | n, c :: rest =>
    if c = '\n' then collapseNlGo (n + 1) rest
    else emitNl n ++ c :: collapseNlGo 0 rest

def collapseNl (cs : PyStr) : PyStr := collapseNlGo 0 cs

/-- The word characters of the regex class used by clean_text (ASCII model
of the re module's word class). -/
def isWordChar (c : Char) : Bool := c.isAlphanum || c = '_'

/-- Hyphenated line-break splits are rejoined: word-, newline, word becomes
the two word characters, scanning resuming after the match. -/
def dehyphen : PyStr → PyStr
  | a :: '-' :: '\n' :: b :: rest =>
    if isWordChar a && isWordChar b then a :: b :: dehyphen rest
    else a :: dehyphen ('-' :: '\n' :: b :: rest)
  | c :: rest => c :: dehyphen rest
  | [] => []

def emitSp (n : Nat) : PyStr := if 1 ≤ n then [' '] else []

/-- Runs of spaces collapse to a single space. -/
def collapseSpGo : Nat → PyStr → PyStr
  | n, [] => emitSp n
  | n, c :: rest =>
    if c = ' ' then collapseSpGo (n + 1) rest
    else emitSp n ++ c :: collapseSpGo 0 rest

def collapseSp (cs : PyStr) : PyStr := collapseSpGo 0 cs

/-- Embedding of clean_text (src/app/text_utils.py, lines 54-61). -/
def clean_text (cs : PyStr) : PyStr :=
  pyStripL (collapseSp (dehyphen (collapseNl (crToNl cs))))

/-! ## Metadata dictionaries and the vector store (src/app/embed_store.py) -/

/-- The values that occur in the metadata dictionaries of the store:
strings, integers (page numbers) and floats (scores, modelled as exact
rationals). -/
inductive MVal where
  | str (s : PyStr)
  | nat (n : Nat)
  | rat (q : ℚ)
deriving DecidableEq

/-- A Python dict with string keys, modelled as an insertion-ordered
association list with unique keys. -/
abbrev Md := List (PyStr × MVal)

/-- Python dict item assignment: an existing key keeps its position, a new
key is appended. -/
def dictSet (m : Md) (k : PyStr) (v : MVal) : Md :=
  match m with
  | [] => [(k, v)]
  | (k', v') :: rest => if k' = k then (k, v) :: rest else (k', v') :: dictSet rest k v

def keyChunkText : PyStr := ['c', 'h', 'u', 'n', 'k', '_', 't', 'e', 'x', 't']
def keyScore : PyStr := ['s', 'c', 'o', 'r', 'e']
def keyBookId : PyStr := ['b', 'o', 'o', 'k', '_', 'i', 'd']
def keyBookTitle : PyStr := ['b', 'o', 'o', 'k', '_', 't', 'i', 't', 'l', 'e']
def keyPage : PyStr := ['p', 'a', 'g', 'e']
def keySource : PyStr := ['s', 'o', 'u', 'r', 'c', 'e']

/-- An embedding vector: float32 components modelled as rationals. -/
abbrev Vec := List ℚ

/-- The EmbedStore state: the FAISS index is a flat array of vectors, the
metadata a parallel list of dicts. -/
structure Store where
  index : List Vec
  meta : List Md
deriving DecidableEq

def emptyStore : Store := ⟨[], []⟩

/-- The exceptions relevant to the embedded functions.  batchInsertError is
the failure mode the specification prescribes for add_batch; valueError is
what ingest_pdf raises when no text was extracted. -/
inductive PyError where
  | batchInsertError
  | valueError
deriving DecidableEq

/-- Embedding of EmbedStore.add (lines 63-84).  The sentence-transformers
encoder is an external collaborator and _normalize is applied to its output
in float arithmetic; the composite is the uninterpreted parameter embed
(no verified property of add depends on the numeric values).  Saving to
disk has no observable effect on the in-memory state and is omitted. -/
def Store.add (embed : PyStr → Vec) (st : Store) (chunk : PyStr) (md : Md) : Store :=
  if isBlankL chunk then st
  else
    { index := st.index ++ [embed chunk],
      meta := st.meta ++ [dictSet md keyChunkText (MVal.str chunk)] }

/-- The percentages emitted inside the embedding loop of add_batch: one per
batch of 100 after the first, 65 + floor((i / n) * 15).  (Python computes
the quotient in floating point; the model uses the exact rational, whose
floor these small integer cases agree with.) -/
def batchEvs (n : Nat) : List Nat :=
  ((List.range ((n + 99) / 100)).drop 1).map (fun j => 65 + (j * 100 * 15) / n)

/-- Embedding of EmbedStore.add_batch (lines 86-156).  The function contains
no raise statement, so every Python return is an .ok; the second component
collects the percentages passed to the progress callback.  Per-batch
encoding followed by vstack equals encoding chunk by chunk, and the
vectorised normalisation equals _normalize per row; both are folded into
the uninterpreted embed as in Store.add. -/
def Store.add_batch (embed : PyStr → Vec) (st : Store) (chunks : List PyStr)
    (mds : List Md) : Except PyError (Store × List Nat) :=
  if chunks = [] ∨ chunks.length ≠ mds.length then .ok (st, [])
  else
    let valid := (chunks.zip mds).filter (fun p => !isBlankL p.1)
    if valid = [] then .ok (st, [])
    else
      let n := valid.length
      .ok ({ index := st.index ++ valid.map (fun p => embed p.1),
             meta := st.meta ++ valid.map (fun p => dictSet p.2 keyChunkText (MVal.str p.1)) },
           [65] ++ batchEvs n ++ [80, 85, 90])

/-- Inner product of two stored vectors (zip truncates at the shorter
operand, as the dimensions always agree in use). -/
def dot (u v : Vec) : ℚ := ((u.zip v).map (fun p => p.1 * p.2)).sum

/-- The ranking order of search results: higher score first, ties broken by
the smaller insertion index. -/
def rankLe (a b : ℚ × Nat) : Prop := b.1 < a.1 ∨ (a.1 = b.1 ∧ a.2 ≤ b.2)

instance : DecidableRel rankLe := fun a b =>
  decidable_of_iff (b.1 < a.1 ∨ (a.1 = b.1 ∧ a.2 ≤ b.2)) Iff.rfl

/-- Strict version of the ranking order (what holds between consecutive
results, whose indices are distinct). -/
def rankLt (a b : ℚ × Nat) : Prop := b.1 < a.1 ∨ (a.1 = b.1 ∧ a.2 < b.2)

/-- Modelled from the spec: faiss.IndexFlatIP.search is an external library
call; the spec describes it as exact inner-product top-n selection, scores
descending, ties broken by insertion order (earliest first).  It returns
the n best (score, index) pairs. -/
def faissTopK (index : List Vec) (q : Vec) (n : Nat) : List (ℚ × Nat) :=
  (List.insertionSort rankLe (index.enum.map (fun p => (dot q p.2, p.1)))).take n

/-- Embedding of EmbedStore.search (lines 158-191).  The index object
always exists after _load, so index is None is modelled as always false;
the try/except wraps only external-library failures.  The query embedding
is the same uninterpreted embed composite as in add. -/
def Store.search (embed : PyStr → Vec) (st : Store) (query : PyStr) (top_k : Nat) :
    List Md :=
  if st.index.length = 0 then []
  else if isBlankL query then []
  else
    let n := min top_k st.index.length
    (faissTopK st.index (embed query) n).filterMap (fun p =>
      match st.meta[p.2]? with
      | some m => some (dictSet m keyScore (MVal.rat p.1))
      | none => none)

/-- Embedding of the consistency-repair step of EmbedStore._load
(lines 32-39): pad the metadata with empty dicts while it is shorter than
the index, or truncate it when it is longer. -/
def loadRepair (ntotal : Nat) (meta : List Md) : List Md :=
  if meta.length < ntotal then meta ++ List.replicate (ntotal - meta.length) []
  else if ntotal < meta.length then meta.take ntotal
  else meta

/-- The mutating operations of the store, for stating the lockstep
invariant over arbitrary operation sequences. -/
inductive Op where
  | add (chunk : PyStr) (md : Md)
  | add_batch (chunks : List PyStr) (mds : List Md)

def applyOp (embed : PyStr → Vec) (st : Store) : Op → Store
  | .add c m => st.add embed c m
  | .add_batch cs ms =>
    match st.add_batch embed cs ms with
    | .ok p => p.1
    | .error _ => st

def runOps (embed : PyStr → Vec) (ops : List Op) (st : Store) : Store :=
  ops.foldl (applyOp embed) st

/-! ## The result cache (src/app/cache.py) -/

/-- Python str.startswith, on the character-list model. -/
def pfxOfB : PyStr → PyStr → Bool
  | [], _ => true
  | _ :: _, [] => false
  | a :: as, b :: bs => a == b && pfxOfB as bs

def bvC : PyStr := ['b', 'o', 'o', 'k', 'v', 'i', 's', 'i', 'o', 'n', ':']

/-- Embedding of Cache._make_key (lines 33-36): bookvision:, the namespace,
a colon, the md5 hexdigest of the query.  The hash function is the
uninterpreted parameter md5 (hashlib is an external library); the verified
statements assume only that its output contains no colon, as a hexdigest
never does. -/
def mkKey (md5 : PyStr → PyStr) (pfx query : PyStr) : PyStr :=
  bvC ++ pfx ++ [':'] ++ md5 query

/-- The in-process fallback store: an insertion-ordered dict from derived
keys to cached values.  The Redis tier is an external collaborator and the
model covers the fallback mode (redis_client is None). -/
abbrev MemCache (V : Type) := List (PyStr × V)

/-- Python dict assignment on the fallback store. -/
def dictInsert {V : Type} (mc : MemCache V) (k : PyStr) (v : V) : MemCache V :=
  match mc with
  | [] => [(k, v)]
  | (k', v') :: rest => if k' = k then (k, v) :: rest else (k', v') :: dictInsert rest k v

/-- Python dict membership-and-read: the value stored at a key, if any. -/
def lookupKey {V : Type} (mc : MemCache V) (k : PyStr) : Option V :=
  match mc with
  | [] => none
  | kv :: rest => if kv.1 = k then some kv.2 else lookupKey rest k

/-- Embedding of the fallback path of Cache.get (lines 50-54). -/
def cacheGet {V : Type} (md5 : PyStr → PyStr) (mc : MemCache V) (pfx query : PyStr) :
    Option V :=
  lookupKey mc (mkKey md5 pfx query)

/-- Embedding of the fallback path of Cache.set (lines 68-75).  The ttl
argument is computed but unused on this path (simple TTL not implemented
for memory); after insertion, if the dict exceeds 1000 entries the first
100 keys in insertion order are deleted. -/
def cacheSet {V : Type} (md5 : PyStr → PyStr) (mc : MemCache V) (pfx query : PyStr)
    (v : V) (ttl : Nat) : MemCache V :=
  let mc1 := dictInsert mc (mkKey md5 pfx query) v
  if 1000 < mc1.length then
    let doomed := (mc1.map Prod.fst).take 100
    mc1.filter (fun kv => !(decide (kv.1 ∈ doomed)))
  else mc1

/-- Embedding of the fallback path of Cache.clear (lines 91-97): with a
namespace, delete exactly the entries whose key starts with bookvision:,
the namespace and a colon; without one, clear everything. -/
def cacheClear {V : Type} (mc : MemCache V) (pfx : Option PyStr) : MemCache V :=
  match pfx with
  | some p => mc.filter (fun kv => !(pfxOfB (bvC ++ p ++ [':']) kv.1))
  | none => []

/-! ## The ingestion pipeline (src/app/ingest.py, src/app/text_utils.py) -/

/-- What the external extractor yields for one page: the text layer, and
the OCR text used when the text layer is blank. -/
structure PageSrc where
  text : PyStr
  ocrText : PyStr
deriving DecidableEq

/-- The page-extraction loop of extract_and_chunk_pdf (lines 74-101):
collects (page text, 1-based page number) pairs and the percentages emitted
while extracting; a blank text layer emits the same percentage a second
time for the OCR message.  Page-image generation produces no events and no
chunks and is omitted. -/
def extractLoop (total : Nat) : Nat → List PageSrc → List (PyStr × Nat) × List Nat
  | _, [] => ([], [])
  | pno, p :: rest =>
    let pp := 10 + (pno * 30) / total
    let r := extractLoop total (pno + 1) rest
    if isBlankL p.text then ((p.ocrText, pno + 1) :: r.1, pp :: pp :: r.2)
    else ((p.text, pno + 1) :: r.1, pp :: r.2)

/-- The per-page chunking loop of extract_and_chunk_pdf (lines 109-124):
clean each page, chunk non-empty pages, tag chunks with the page number,
and emit a percentage after every tenth page.  The accumulated full text is
discarded by ingest_pdf and is omitted. -/
def chunkLoop (total : Nat) (maxChars : Nat) :
    Nat → List (PyStr × Nat) → List (PyStr × Nat) × List Nat
  | _, [] => ([], [])
  | idx, (ptext, pnum) :: rest =>
    let cleaned := clean_text ptext
    let here := if cleaned = [] then [] else (chunk_text cleaned maxChars).map (fun c => (c, pnum))
    let ev := if (idx + 1) % 10 = 0 then [40 + ((idx + 1) * 8) / total] else []
    let r := chunkLoop total maxChars (idx + 1) rest
    (here ++ r.1, ev ++ r.2)

/-- Embedding of extract_and_chunk_pdf (lines 63-131) on already-extracted
page data (PDF parsing and OCR are external collaborators); returns the
(chunk, page) pairs and the emitted percentages.  The try/except wraps only
external-library failures. -/
def extract_and_chunk_pdf (pages : List PageSrc) (maxChars : Nat := 800) :
    List (PyStr × Nat) × List Nat :=
  let total := pages.length
  let er := extractLoop total 0 pages
  let cr := chunkLoop er.1.length maxChars 0 er.1
  (cr.1, er.2 ++ [40] ++ cr.2)

/-- Embedding of ingest_pdf (src/app/ingest.py, lines 32-84): extract and
chunk, fail with ValueError when nothing was extracted, build the per-chunk
metadata, batch-add, and save page images (which emits two 90 percent
events around a 95).  The uuid book id and the title fall-back are
externally supplied values. -/
def ingest_pdf (embed : PyStr → Vec) (st : Store) (pages : List PageSrc)
    (bookId bookTitle source : PyStr) : Except PyError (Store × List Nat) :=
  let er := extract_and_chunk_pdf pages 800
  if er.1 = [] then .error .valueError
  else
    let metadataList := er.1.map (fun cp =>
      [(keyBookId, MVal.str bookId), (keyBookTitle, MVal.str bookTitle),
       (keyPage, MVal.nat cp.2), (keySource, MVal.str source)])
    let chunksList := er.1.map Prod.fst
    match st.add_batch embed chunksList metadataList with
    | .error e => .error e
    | .ok (st', abEvs) =>
      .ok (st', [10] ++ er.2 ++ [50, 60] ++ abEvs ++ [90, 90, 95])

/-! ## The numeric contract of _normalize, over the reals -/

/-- np.linalg.norm: the L2 norm, in exact real arithmetic. -/
noncomputable def l2norm (v : List ℝ) : ℝ :=
  Real.sqrt ((v.map (fun x => x ^ 2)).sum)

/-- Embedding of EmbedStore._normalize (src/app/embed_store.py,
lines 56-61), in exact real arithmetic: divide by the norm when it is
positive, return the vector unchanged otherwise. -/
noncomputable def normalizeVec (v : List ℝ) : List ℝ :=
  if 0 < l2norm v then v.map (fun x => x / l2norm v) else v

/-! ## Concrete instances used by witnesses and counterexamples -/

def embedOne : PyStr → Vec := fun _ => [(1 : ℚ)]

def embedLen : PyStr → Vec := fun s => [(s.length : ℚ)]

def stTwo : Store := ⟨[[2], [3]], [[], []]⟩

def aChunk : PyStr := List.replicate 60 'a'

def cx3Chunks : List PyStr := [aChunk, aChunk, aChunk, aChunk, aChunk]

def cx3Mds : List Md := [[], [], [], []]

def md5Const : PyStr → PyStr := fun _ => ['0', '1', 'a', 'b']

def nsA : PyStr := ['a']

def nsAB : PyStr := ['a', ':', 'b']

def qQ : PyStr := ['q']

def pgW : PageSrc := ⟨aChunk, []⟩

def bidW : PyStr := ['i', 'd']

def btW : PyStr := ['t']

def srcW : PyStr := ['s']

def stW8 : Store :=
  ⟨[[1]],
   [[(keyBookId, MVal.str bidW), (keyBookTitle, MVal.str btW),
     (keyPage, MVal.nat 1), (keySource, MVal.str srcW),
     (keyChunkText, MVal.str aChunk)]]⟩

def evW8 : List Nat := [10, 10, 40, 50, 60, 65, 80, 85, 90, 90, 90, 95]

def nsC : PyStr := ['c']

def mcW : MemCache Nat := [(mkKey md5Const nsC qQ, 3)]

/-- Bounded monotone event lists: the percentages are non-decreasing and
all lie between lo and hi. -/
def BMono (lo hi : Nat) (evs : List Nat) : Prop :=
  List.Chain' (fun a b => a ≤ b) evs ∧ ∀ p ∈ evs, lo ≤ p ∧ p ≤ hi

/-! ## Theorems -/

theorem pyStripL_nil : pyStripL [] = [] := rfl

/-- C5: for every input and max_chars, _chunk_text returns only chunks of
trimmed length at least 50 — in particular never an empty or
whitespace-only chunk — and blank input yields the empty sequence. -/
theorem chunk_text_min_length (text : PyStr) (maxChars : Nat) :
    (∀ c ∈ chunk_text text maxChars,
      50 ≤ (pyStripL c).length ∧ c ≠ [] ∧ pyStripL c ≠ []) ∧
    (isBlankL text = true → chunk_text text maxChars = []) := by
  constructor
  · intro c hc
    have h50 : 50 ≤ (pyStripL c).length := by
      unfold chunk_text at hc
      split at hc
      · simp at hc
      · simp only [List.mem_filter, decide_eq_true_eq] at hc
        exact hc.2
    refine ⟨h50, ?_, ?_⟩
    · rintro rfl
      rw [pyStripL_nil] at h50
      simp at h50
    · intro h
      rw [h] at h50
      simp at h50
  · intro h
    unfold chunk_text
    rw [if_pos h]

/-- Witness for C5 at a concrete 60-character chunk and a blank input. -/
theorem chunk_text_min_length_witness :
    (aChunk ∈ chunk_text aChunk 800 ∧
      (50 ≤ (pyStripL aChunk).length ∧ aChunk ≠ [] ∧ pyStripL aChunk ≠ [])) ∧
    (isBlankL [' ', '\n'] = true ∧ chunk_text [' ', '\n'] 800 = []) :=
  ⟨⟨by decide, (chunk_text_min_length aChunk 800).1 aChunk (by decide)⟩,
   ⟨by decide, (chunk_text_min_length [' ', '\n'] 800).2 (by decide)⟩⟩

/-- C6: the load-time repair makes the metadata length equal the vector
count, padding with empty records when the index is larger and truncating
when it is smaller; equal counts are left unchanged. -/
theorem loadRepair_matches (ntotal : Nat) (meta : List Md) :
    (loadRepair ntotal meta).length = ntotal ∧
    (meta.length < ntotal →
      loadRepair ntotal meta = meta ++ List.replicate (ntotal - meta.length) []) ∧
    (ntotal < meta.length → loadRepair ntotal meta = meta.take ntotal) ∧
    (ntotal = meta.length → loadRepair ntotal meta = meta) := by
  unfold loadRepair
  rcases lt_trichotomy meta.length ntotal with h | h | h
  · rw [if_pos h]
    refine ⟨by simp; omega, fun _ => rfl, fun h2 => absurd h (not_lt.2 h2.le), ?_⟩
    intro h2
    omega
  · rw [if_neg (by omega), if_neg (by omega)]
    exact ⟨h, fun h2 => by omega, fun h2 => by omega, fun _ => rfl⟩
  · rw [if_neg (by omega), if_pos h]
    refine ⟨by simp; omega, fun h2 => by omega, fun _ => rfl, fun h2 => by omega⟩

/-- Witness for C6: padding for a larger index, truncation for a smaller
one. -/
theorem loadRepair_matches_witness :
    ((loadRepair 3 [[]]).length = 3 ∧
      ([] : Md).length < 3 ∧ loadRepair 3 [[]] = [[]] ++ List.replicate 2 []) ∧
    (loadRepair 1 [[], []] = [[], []].take 1) :=
  ⟨⟨(loadRepair_matches 3 [[]]).1, by decide,
    (loadRepair_matches 3 [[]]).2.1 (by decide)⟩,
   (loadRepair_matches 1 [[], []]).2.2.1 (by decide)⟩

/-- C10: a blank (empty or whitespace-only) query returns the empty result
list on every store, also a non-empty one; search reads the store without
mutating it (the method assigns no state, which the functional embedding
reflects). -/
theorem search_blank_query (embed : PyStr → Vec) (st : Store) (q : PyStr) (k : Nat)
    (hq : isBlankL q = true) : st.search embed q k = [] := by
  simp [Store.search, hq]

/-- Witness for C10 on a non-empty two-vector store. -/
theorem search_blank_query_witness :
    isBlankL [' '] = true ∧ stTwo.index.length = 2 ∧
    stTwo.search embedLen [' '] 5 = [] :=
  ⟨by decide, by decide, search_blank_query embedLen stTwo [' '] 5 (by decide)⟩

/-- Counterexample to C3 as stated: a batch of 5 chunks with 4 metadata
records does not fail with BatchInsertError — add_batch returns normally
(its only exit paths are returns) with the store unchanged and no
callback events. -/
theorem add_batch_mismatch_returns_ok :
    Store.add_batch embedOne emptyStore cx3Chunks cx3Mds = .ok (emptyStore, []) ∧
    cx3Chunks.length = 5 ∧ cx3Mds.length = 4 := by
  constructor
  · rfl
  · exact ⟨rfl, rfl⟩

/-- C3 as amended: a length-mismatched batch is silently skipped — the call
returns normally without signalling any error and persists nothing, so the
index size and the metadata length are unchanged (all-or-nothing holds; no
BatchInsertError exists in the code). -/
theorem add_batch_mismatch_noop (embed : PyStr → Vec) (st : Store)
    (chunks : List PyStr) (mds : List Md) (h : chunks.length ≠ mds.length) :
    st.add_batch embed chunks mds = .ok (st, []) := by
  unfold Store.add_batch
  rw [if_pos (Or.inr h)]

/-- Witness for the amended C3 on a non-empty store. -/
theorem add_batch_mismatch_noop_witness :
    cx3Chunks.length ≠ cx3Mds.length ∧
    Store.add_batch embedOne stTwo cx3Chunks cx3Mds = .ok (stTwo, []) :=
  ⟨by decide, add_batch_mismatch_noop embedOne stTwo cx3Chunks cx3Mds (by decide)⟩

theorem applyOp_appends (embed : PyStr → Vec) (st : Store) (op : Op) :
    ∃ nv nm, nv.length = nm.length ∧
      (applyOp embed st op).index = st.index ++ nv ∧
      (applyOp embed st op).meta = st.meta ++ nm := by
  cases op with
  | add c m =>
    by_cases h : isBlankL c = true
    · exact ⟨[], [], rfl, by simp [applyOp, Store.add, h], by simp [applyOp, Store.add, h]⟩
    · exact ⟨[embed c], [dictSet m keyChunkText (MVal.str c)], rfl,
        by simp [applyOp, Store.add, h], by simp [applyOp, Store.add, h]⟩
  | add_batch cs ms =>
    by_cases h1 : cs = [] ∨ cs.length ≠ ms.length
    · exact ⟨[], [], rfl, by simp [applyOp, Store.add_batch, h1],
        by simp [applyOp, Store.add_batch, h1]⟩
    · by_cases h2 : (cs.zip ms).filter (fun p => !isBlankL p.1) = []
      · exact ⟨[], [], rfl, by simp [applyOp, Store.add_batch, h1, h2],
          by simp [applyOp, Store.add_batch, h1, h2]⟩
      · refine ⟨((cs.zip ms).filter (fun p => !isBlankL p.1)).map (fun p => embed p.1),
          ((cs.zip ms).filter (fun p => !isBlankL p.1)).map
            (fun p => dictSet p.2 keyChunkText (MVal.str p.1)),
          by simp, ?_, ?_⟩ <;>
          simp [applyOp, Store.add_batch, h1, h2]

/-- C1: starting from the empty store, after every sequence of add and
add_batch operations the vector count equals the metadata count; moreover
every single operation only appends, in lockstep and in input order — it
never reorders or deletes. -/
theorem store_add_lockstep (embed : PyStr → Vec) :
    (∀ ops : List Op,
      (runOps embed ops emptyStore).index.length =
        (runOps embed ops emptyStore).meta.length) ∧
    (∀ (st : Store) (op : Op), ∃ nv nm, nv.length = nm.length ∧
      (applyOp embed st op).index = st.index ++ nv ∧
      (applyOp embed st op).meta = st.meta ++ nm) := by
  refine ⟨?_, applyOp_appends embed⟩
  have step : ∀ (ops : List Op) (st : Store),
      st.index.length = st.meta.length →
      (runOps embed ops st).index.length = (runOps embed ops st).meta.length := by
    intro ops
    induction ops with
    | nil => exact fun st h => h
    | cons op rest ih =>
      intro st h
      obtain ⟨nv, nm, hlen, hi, hm⟩ := applyOp_appends embed st op
      have h2 : (applyOp embed st op).index.length = (applyOp embed st op).meta.length := by
        rw [hi, hm]
        simp [h, hlen]
      simpa [runOps] using ih (applyOp embed st op) h2
  exact fun ops => step ops emptyStore rfl

theorem pfxOfB_iff : ∀ l₁ l₂ : PyStr, pfxOfB l₁ l₂ = true ↔ l₁ <+: l₂
  | [], l₂ => by simp [pfxOfB]
  | a :: as, [] => by simp [pfxOfB]
  | a :: as, b :: bs => by
    simp [pfxOfB, pfxOfB_iff as bs, List.cons_prefix_cons]

theorem colon_sep (c : Char) (h : PyStr) (hc : c ∉ h) :
    ∀ a b : PyStr, (a ++ [c]) <+: (b ++ c :: h) → b = a ∨ (a ++ [c]) <+: b := by
  intro a
  induction a with
  | nil =>
    intro b hp
    cases b with
    | nil => exact Or.inl rfl
    | cons b₀ b' =>
      simp only [List.nil_append, List.cons_append, List.cons_prefix_cons] at hp
      exact Or.inr (List.cons_prefix_cons.mpr ⟨hp.1, List.nil_prefix⟩)
  | cons a₀ a' ih =>
    intro b hp
    cases b with
    | nil =>
      simp only [List.nil_append, List.cons_append, List.cons_prefix_cons] at hp
      exact absurd (hp.2.subset (by simp)) hc
    | cons b₀ b' =>
      simp only [List.cons_append, List.cons_prefix_cons] at hp
      rcases ih b' hp.2 with h1 | h1
      · exact Or.inl (by rw [hp.1, h1])
      · exact Or.inr (List.cons_prefix_cons.mpr ⟨hp.1, h1⟩)

theorem mkKey_pfx_analysis (md5 : PyStr → PyStr) (hmd5 : ∀ s, ':' ∉ md5 s)
    (ns ns' q : PyStr)
    (hp : pfxOfB (bvC ++ ns ++ [':']) (mkKey md5 ns' q) = true) :
    ns' = ns ∨ (ns ++ [':']) <+: ns' := by
  rw [pfxOfB_iff] at hp
  unfold mkKey at hp
  have hp' : (ns ++ [':']) <+: (ns' ++ ':' :: md5 q) := by
    rw [List.append_assoc bvC ns [':'], List.append_assoc bvC ns' [':'],
      List.append_assoc bvC (ns' ++ [':']) (md5 q)] at hp
    have := (List.prefix_append_right_inj bvC).1 hp
    simpa using this
  exact colon_sep ':' (md5 q) (hmd5 q) ns ns' hp'

theorem mkKey_pfx_self (md5 : PyStr → PyStr) (ns q : PyStr) :
    pfxOfB (bvC ++ ns ++ [':']) (mkKey md5 ns q) = true := by
  rw [pfxOfB_iff]
  unfold mkKey
  simpa [List.append_assoc] using
    (bvC ++ ns ++ [':']).prefix_append (md5 q)

theorem lookupKey_filter_keep {V : Type} (P : PyStr → Bool) (k : PyStr)
    (hP : P k = false) (mc : MemCache V) :
    lookupKey (mc.filter (fun kv => !(P kv.1))) k = lookupKey mc k := by
  induction mc with
  | nil => rfl
  | cons kv rest ih =>
    rw [List.filter_cons]
    by_cases hkv : P kv.1 = true
    · have hk : kv.1 ≠ k := fun he => by rw [he, hP] at hkv; exact Bool.false_ne_true hkv
      rw [if_neg (by simp [hkv]), ih, lookupKey, if_neg hk]
    · rw [if_pos (by simp [Bool.not_eq_true] at hkv; simp [hkv])]
      by_cases hk : kv.1 = k
      · rw [lookupKey, if_pos hk, lookupKey, if_pos hk]
      · rw [lookupKey, if_neg hk, lookupKey, if_neg hk, ih]

theorem lookupKey_filter_removed {V : Type} (P : PyStr → Bool) (k : PyStr)
    (hP : P k = true) (mc : MemCache V) :
    lookupKey (mc.filter (fun kv => !(P kv.1))) k = none := by
  induction mc with
  | nil => rfl
  | cons kv rest ih =>
    rw [List.filter_cons]
    by_cases hkv : P kv.1 = true
    · rw [if_neg (by simp [hkv])]
      exact ih
    · rw [if_pos (by simp [Bool.not_eq_true] at hkv; simp [hkv])]
      have hk : kv.1 ≠ k := fun he => by rw [he] at hkv; exact hkv hP
      rw [lookupKey, if_neg hk]
      exact ih

/-- C7 as amended: clear(ns) removes exactly the fallback entries whose
derived key starts with bookvision:, ns and a colon; queries under ns then
miss, and an entry set under a namespace that is neither ns nor an
extension of ns by a colon stays retrievable.  (As stated the claim fails:
a namespace extending ns past a colon also falls under the deleted key
range — see the counterexample.)  The md5 hypothesis records that a
hexdigest never contains a colon. -/
theorem clear_scoped {V : Type} (md5 : PyStr → PyStr) (mc : MemCache V) (ns ns' q : PyStr)
    (hmd5 : ∀ s, ':' ∉ md5 s) (hne : ns' ≠ ns) (hnx : ¬(ns ++ [':']) <+: ns') :
    (∀ kv, kv ∈ cacheClear mc (some ns) ↔
      kv ∈ mc ∧ pfxOfB (bvC ++ ns ++ [':']) kv.1 = false) ∧
    (∀ q2, cacheGet md5 (cacheClear mc (some ns)) ns q2 = none) ∧
    cacheGet md5 (cacheClear mc (some ns)) ns' q = cacheGet md5 mc ns' q := by
  refine ⟨?_, ?_, ?_⟩
  · intro kv
    simp [cacheClear, List.mem_filter]
  · intro q2
    unfold cacheGet cacheClear
    exact lookupKey_filter_removed _ _ (mkKey_pfx_self md5 ns q2) mc
  · unfold cacheGet cacheClear
    rw [lookupKey_filter_keep]
    by_cases hp : pfxOfB (bvC ++ ns ++ [':']) (mkKey md5 ns' q) = true
    · rcases mkKey_pfx_analysis md5 hmd5 ns ns' q hp with h | h
      · exact absurd h hne
      · exact absurd h hnx
    · simpa using hp

/-- Witness for the amended C7: an entry under namespace c survives
clear(a) and stays retrievable. -/
theorem clear_scoped_witness :
    ((∀ s, ':' ∉ md5Const s) ∧ nsC ≠ nsA ∧ ¬(nsA ++ [':']) <+: nsC) ∧
    cacheGet md5Const (cacheClear mcW (some nsA)) nsC qQ = cacheGet md5Const mcW nsC qQ :=
  ⟨⟨fun s => by show ':' ∉ ['0', '1', 'a', 'b']; decide, by decide, by decide⟩,
   (clear_scoped md5Const mcW nsA nsC qQ
     (fun s => by show ':' ∉ ['0', '1', 'a', 'b']; decide) (by decide) (by decide)).2.2⟩

/-- Counterexample to C7 as stated: the entry set under the namespace a:b —
which is different from a — is removed by clear(a) from the fallback store,
so it is no longer retrievable afterwards. -/
theorem clear_removes_sibling_namespace :
    nsAB ≠ nsA ∧
    cacheGet md5Const (cacheSet md5Const ([] : MemCache Nat) nsAB qQ 7 60) nsAB qQ = some 7 ∧
    cacheClear (cacheSet md5Const ([] : MemCache Nat) nsAB qQ 7 60) (some nsA) = [] ∧
    cacheGet md5Const
      (cacheClear (cacheSet md5Const ([] : MemCache Nat) nsAB qQ 7 60) (some nsA))
      nsAB qQ = none := by
  refine ⟨by decide, by decide, by decide, by decide⟩

theorem dictInsert_length {V : Type} (k : PyStr) (v : V) :
    ∀ mc : MemCache V,
      (dictInsert mc k v).length = mc.length ∨
      (dictInsert mc k v).length = mc.length + 1 := by
  intro mc
  induction mc with
  | nil => exact Or.inr rfl
  | cons kv rest ih =>
    by_cases h : kv.1 = k
    · rw [dictInsert, if_pos h]
      exact Or.inl (by simp)
    · rw [dictInsert, if_neg h]
      rcases ih with h2 | h2
      · exact Or.inl (by simp [h2])
      · exact Or.inr (by simp [h2])

theorem dictInsert_keys_mem {V : Type} (k : PyStr) (v : V) :
    ∀ (mc : MemCache V) (x : PyStr),
      x ∈ (dictInsert mc k v).map Prod.fst → x = k ∨ x ∈ mc.map Prod.fst := by
  intro mc
  induction mc with
  | nil => intro x hx; simpa [dictInsert] using hx
  | cons kv rest ih =>
    intro x hx
    by_cases h : kv.1 = k
    · rw [dictInsert, if_pos h] at hx
      simp only [List.map_cons, List.mem_cons] at hx
      rcases hx with hx | hx
      · exact Or.inl hx
      · exact Or.inr (by rw [List.map_cons]; exact List.mem_cons_of_mem _ hx)
    · rw [dictInsert, if_neg h] at hx
      simp only [List.map_cons, List.mem_cons] at hx
      rcases hx with hx | hx
      · exact Or.inr (by rw [List.map_cons, hx]; exact List.mem_cons_self _ _)
      · rcases ih x hx with h2 | h2
        · exact Or.inl h2
        · exact Or.inr (by rw [List.map_cons]; exact List.mem_cons_of_mem _ h2)

theorem dictInsert_keys_nodup {V : Type} (k : PyStr) (v : V) :
    ∀ mc : MemCache V,
      (mc.map Prod.fst).Nodup → ((dictInsert mc k v).map Prod.fst).Nodup := by
  intro mc
  induction mc with
  | nil => intro _; simp [dictInsert]
  | cons kv rest ih =>
    intro hnd
    simp only [List.map_cons, List.nodup_cons] at hnd
    by_cases h : kv.1 = k
    · rw [dictInsert, if_pos h]
      simp only [List.map_cons, List.nodup_cons]
      exact ⟨by rw [← h]; exact hnd.1, hnd.2⟩
    · rw [dictInsert, if_neg h]
      simp only [List.map_cons, List.nodup_cons]
      refine ⟨?_, ih hnd.2⟩
      intro hmem
      rcases dictInsert_keys_mem k v rest kv.1 hmem with h2 | h2
      · exact h h2
      · exact hnd.1 h2

theorem filter_take_keys_drop {V : Type} :
    ∀ (l : List (PyStr × V)) (n : Nat), (l.map Prod.fst).Nodup →
      l.filter (fun kv => !(decide (kv.1 ∈ (l.map Prod.fst).take n))) = l.drop n := by
  intro l
  induction l with
  | nil => intro n _; simp
  | cons kv rest ih =>
    intro n hnd
    simp only [List.map_cons, List.nodup_cons] at hnd
    cases n with
    | zero =>
      rw [List.take_zero, List.drop_zero]
      apply List.filter_eq_self.mpr
      intro a _
      simp
    | succ n =>
      rw [List.map_cons, List.take_succ_cons, List.drop_succ_cons, List.filter_cons]
      rw [if_neg (by simp)]
      have hcongr : rest.filter
          (fun kv2 => !(decide (kv2.1 ∈ kv.1 :: (rest.map Prod.fst).take n))) =
          rest.filter (fun kv2 => !(decide (kv2.1 ∈ (rest.map Prod.fst).take n))) := by
        apply List.filter_congr
        intro a ha
        have hne : a.1 ≠ kv.1 := by
          intro he
          exact hnd.1 (he ▸ List.mem_map_of_mem Prod.fst ha)
        simp [List.mem_cons, hne]
      rw [hcongr, ih n hnd.2]

/-- C9: on the in-process fallback store, whenever an insertion pushes the
entry count past the 1000-entry cap the oldest 100 entries — the first ten
percent in insertion order — are evicted, so the count after every set
stays at most 1000 (on every reachable state: unique keys, at most 1000
entries); when the cap is not exceeded the insertion is kept whole, and
the ttl argument plays no role on this tier (no TTL eviction). -/
theorem cacheSet_capacity {V : Type} (md5 : PyStr → PyStr) (mc : MemCache V)
    (pfx q : PyStr) (v : V) (ttl ttl2 : Nat)
    (hnd : (mc.map Prod.fst).Nodup) (hlen : mc.length ≤ 1000) :
    (cacheSet md5 mc pfx q v ttl).length ≤ 1000 ∧
    ((cacheSet md5 mc pfx q v ttl).map Prod.fst).Nodup ∧
    (1000 < (dictInsert mc (mkKey md5 pfx q) v).length →
      cacheSet md5 mc pfx q v ttl = (dictInsert mc (mkKey md5 pfx q) v).drop 100) ∧
    ((dictInsert mc (mkKey md5 pfx q) v).length ≤ 1000 →
      cacheSet md5 mc pfx q v ttl = dictInsert mc (mkKey md5 pfx q) v) ∧
    cacheSet md5 mc pfx q v ttl = cacheSet md5 mc pfx q v ttl2 := by
  have hnd1 : ((dictInsert mc (mkKey md5 pfx q) v).map Prod.fst).Nodup :=
    dictInsert_keys_nodup _ _ mc hnd
  have hset : ∀ t : Nat, cacheSet md5 mc pfx q v t =
      (if 1000 < (dictInsert mc (mkKey md5 pfx q) v).length then
        (dictInsert mc (mkKey md5 pfx q) v).filter
          (fun kv => !(decide (kv.1 ∈ ((dictInsert mc (mkKey md5 pfx q) v).map Prod.fst).take 100)))
      else dictInsert mc (mkKey md5 pfx q) v) := fun _ => rfl
  by_cases hgt : 1000 < (dictInsert mc (mkKey md5 pfx q) v).length
  · have hlen1 : (dictInsert mc (mkKey md5 pfx q) v).length = 1001 := by
      rcases dictInsert_length (mkKey md5 pfx q) v mc with h | h <;> omega
    have hdrop : cacheSet md5 mc pfx q v ttl =
        (dictInsert mc (mkKey md5 pfx q) v).drop 100 := by
      rw [hset ttl, if_pos hgt]
      exact filter_take_keys_drop _ 100 hnd1
    refine ⟨?_, ?_, fun _ => hdrop, fun h => absurd h (by omega), by rw [hset ttl, hset ttl2]⟩
    · rw [hdrop, List.length_drop, hlen1]
      omega
    · rw [hdrop, List.map_drop]
      exact hnd1.sublist (List.drop_sublist 100 _)
  · have hkeep : cacheSet md5 mc pfx q v ttl = dictInsert mc (mkKey md5 pfx q) v := by
      rw [hset ttl, if_neg hgt]
    refine ⟨?_, ?_, fun h => absurd h hgt, fun _ => hkeep, by rw [hset ttl, hset ttl2]⟩
    · rw [hkeep]; omega
    · rw [hkeep]; exact hnd1

/-- Witness for C9 on the empty fallback store. -/
theorem cacheSet_capacity_witness :
    ((([] : MemCache Nat).map Prod.fst).Nodup ∧ ([] : MemCache Nat).length ≤ 1000) ∧
    (cacheSet md5Const ([] : MemCache Nat) nsA qQ 5 60).length ≤ 1000 :=
  ⟨⟨by decide, by decide⟩,
   (cacheSet_capacity md5Const ([] : MemCache Nat) nsA qQ 5 60 61 (by decide) (by decide)).1⟩

theorem sum_map_div (c : ℝ) : ∀ l : List ℝ, (l.map (fun x => x / c)).sum = l.sum / c := by
  intro l
  induction l with
  | nil => simp
  | cons x rest ih => simp [ih, add_div]

theorem sumsq_nonneg (v : List ℝ) : 0 ≤ (v.map (fun x => x ^ 2)).sum := by
  apply List.sum_nonneg
  intro x hx
  rcases List.mem_map.1 hx with ⟨y, _, rfl⟩
  exact sq_nonneg y

theorem l2norm_pos_of_ne_zero {v : List ℝ} {x : ℝ} (hx : x ∈ v) (hx0 : x ≠ 0) :
    0 < l2norm v := by
  unfold l2norm
  rw [Real.sqrt_pos]
  have h1 : x ^ 2 ≤ (v.map (fun y => y ^ 2)).sum := by
    apply List.single_le_sum
    · intro y hy
      rcases List.mem_map.1 hy with ⟨z, _, rfl⟩
      exact sq_nonneg z
    · exact List.mem_map_of_mem _ hx
  exact lt_of_lt_of_le (sq_pos_of_ne_zero hx0) h1

theorem l2norm_normalize {v : List ℝ} (hv : 0 < l2norm v) :
    l2norm (normalizeVec v) = 1 := by
  have hv2 : 0 < Real.sqrt ((v.map (fun x => x ^ 2)).sum) := hv
  have hS : 0 < (v.map (fun x => x ^ 2)).sum := Real.sqrt_pos.1 hv2
  have hn2 : l2norm v ^ 2 = (v.map (fun x => x ^ 2)).sum :=
    Real.sq_sqrt (sumsq_nonneg v)
  have key : ((v.map (fun x => x / l2norm v)).map (fun x => x ^ 2)).sum = 1 := by
    rw [List.map_map]
    have h1 : ((fun x => x ^ 2) ∘ fun x => x / l2norm v) =
        (fun x => x / l2norm v ^ 2) ∘ (fun x => x ^ 2) := by
      funext x
      simp [div_pow]
    rw [h1, ← List.map_map, sum_map_div, hn2, div_self (ne_of_gt hS)]
  have hbody : normalizeVec v = v.map (fun x => x / l2norm v) := by
    unfold normalizeVec
    rw [if_pos hv]
  rw [hbody]
  show Real.sqrt (((v.map (fun x => x / l2norm v)).map (fun x => x ^ 2)).sum) = 1
  rw [key, Real.sqrt_one]

/-- C4: _normalize yields a unit-L2-norm vector for every vector with a
non-zero component, returns the zero vector unchanged, and is idempotent. -/
theorem normalize_unit_and_idempotent (v : List ℝ) :
    ((∃ x ∈ v, x ≠ 0) → l2norm (normalizeVec v) = 1) ∧
    ((∀ x ∈ v, x = 0) → normalizeVec v = v) ∧
    normalizeVec (normalizeVec v) = normalizeVec v := by
  refine ⟨?_, ?_, ?_⟩
  · rintro ⟨x, hx, hx0⟩
    exact l2norm_normalize (l2norm_pos_of_ne_zero hx hx0)
  · intro hz
    have hS : (v.map (fun x => x ^ 2)).sum = 0 := by
      apply List.sum_eq_zero
      intro y hy
      rcases List.mem_map.1 hy with ⟨z, hz2, rfl⟩
      rw [hz z hz2]
      ring
    unfold normalizeVec l2norm
    rw [hS, Real.sqrt_zero, if_neg (lt_irrefl 0)]
  · by_cases hv : 0 < l2norm v
    · have h1 : l2norm (normalizeVec v) = 1 := l2norm_normalize hv
      set w := normalizeVec v with hw
      have h2 : 0 < l2norm w := by rw [h1]; exact one_pos
      have hbody : normalizeVec w = w.map (fun x => x / l2norm w) := by
        unfold normalizeVec
        rw [if_pos h2]
      rw [hbody, h1]
      simp
    · have hv2 : normalizeVec v = v := by
        unfold normalizeVec
        rw [if_neg hv]
      rw [hv2]
      exact hv2

/-- Witness for C4 at the vector (3, 4). -/
theorem normalize_unit_and_idempotent_witness :
    (∃ x ∈ [(3 : ℝ), 4], x ≠ 0) ∧
    l2norm (normalizeVec [(3 : ℝ), 4]) = 1 ∧
    normalizeVec (normalizeVec [(3 : ℝ), 4]) = normalizeVec [(3 : ℝ), 4] :=
  ⟨⟨3, by norm_num⟩,
   (normalize_unit_and_idempotent [(3 : ℝ), 4]).1 ⟨3, by norm_num⟩,
   (normalize_unit_and_idempotent [(3 : ℝ), 4]).2.2⟩

instance : IsTotal (ℚ × Nat) rankLe :=
  ⟨by
    intro a b
    rcases lt_trichotomy a.1 b.1 with h | h | h
    · exact Or.inr (Or.inl h)
    · rcases Nat.le_total a.2 b.2 with h2 | h2
      · exact Or.inl (Or.inr ⟨h, h2⟩)
      · exact Or.inr (Or.inr ⟨h.symm, h2⟩)
    · exact Or.inl (Or.inl h)⟩

instance : IsTrans (ℚ × Nat) rankLe :=
  ⟨by
    intro a b c hab hbc
    rcases hab with h1 | ⟨h1, h1'⟩
    · rcases hbc with h2 | ⟨h2, h2'⟩
      · exact Or.inl (lt_trans h2 h1)
      · exact Or.inl (h2 ▸ h1)
    · rcases hbc with h2 | ⟨h2, h2'⟩
      · exact Or.inl (by rw [h1]; exact h2)
      · exact Or.inr ⟨h1.trans h2, le_trans h1' h2'⟩⟩

theorem filterMap_eq_map_of_some {α β : Type} (f : α → Option β) (g : α → β) :
    ∀ l : List α, (∀ a ∈ l, f a = some (g a)) → l.filterMap f = l.map g := by
  intro l
  induction l with
  | nil => intro _; rfl
  | cons a rest ih =>
    intro h
    rw [List.filterMap_cons_some (h a (List.mem_cons_self a rest)), List.map_cons,
      ih (fun b hb => h b (List.mem_cons_of_mem a hb))]

theorem scored_mem_spec (qv : Vec) (index : List Vec) (p : ℚ × Nat)
    (hp : p ∈ index.enum.map (fun e => (dot qv e.2, e.1))) :
    p.2 < index.length ∧ p.1 = dot qv (index.getD p.2 []) := by
  rcases List.mem_map.1 hp with ⟨e, he, rfl⟩
  rcases List.mem_iff_getElem.1 he with ⟨i, hi, hei⟩
  rw [List.getElem_enum] at hei
  have hi' : i < index.length := by
    rw [List.enum_length] at hi
    exact hi
  rw [← hei]
  refine ⟨hi', ?_⟩
  have hD : index.getD i [] = index[i] := by
    rw [List.getD_eq_getElem?_getD, List.getElem?_eq_getElem hi']
    rfl
  rw [hD]

theorem getD_mem_enum (index : List Vec) (j : Nat) (hj : j < index.length) :
    (j, index.getD j []) ∈ index.enum := by
  have h1 : index.getD j [] = index[j] := by
    rw [List.getD_eq_getElem?_getD, List.getElem?_eq_getElem hj]
    rfl
  rw [h1]
  apply List.mem_iff_getElem.2
  exact ⟨j, by rw [List.enum_length]; exact hj, by rw [List.getElem_enum]⟩

theorem faissTopK_spec (index : List Vec) (qv : Vec) (n : Nat) (hn : n ≤ index.length) :
    (faissTopK index qv n).length = n ∧
    (∀ p ∈ faissTopK index qv n, p.2 < index.length ∧ p.1 = dot qv (index.getD p.2 [])) ∧
    ((faissTopK index qv n).map Prod.snd).Nodup ∧
    List.Chain' rankLt (faissTopK index qv n) ∧
    (∀ j, j < index.length → (∀ p ∈ faissTopK index qv n, p.2 ≠ j) →
      n < index.length ∧
      ∀ p ∈ faissTopK index qv n, rankLe p (dot qv (index.getD j []), j)) := by
  have hTop : faissTopK index qv n =
      (List.insertionSort rankLe (index.enum.map (fun e => (dot qv e.2, e.1)))).take n := rfl
  rw [hTop]
  set sc := index.enum.map (fun e => (dot qv e.2, e.1)) with hsc
  set S := List.insertionSort rankLe sc with hSdef
  have hperm : S.Perm sc := List.perm_insertionSort rankLe sc
  have hslen : S.length = index.length := by
    rw [hperm.length_eq, hsc, List.length_map, List.enum_length]
  have hsorted : List.Sorted rankLe S := List.sorted_insertionSort rankLe sc
  have hmemS : ∀ p ∈ S, p.2 < index.length ∧ p.1 = dot qv (index.getD p.2 []) :=
    fun p hp => scored_mem_spec qv index p (hperm.subset hp)
  have hsnd : (S.map Prod.snd).Perm (List.range index.length) := by
    have h2 : sc.map Prod.snd = List.range index.length := by
      rw [hsc, List.map_map]
      exact List.enum_map_fst index
    rw [← h2]
    exact hperm.map Prod.snd
  have hnodupS : (S.map Prod.snd).Nodup := hsnd.nodup_iff.2 (List.nodup_range _)
  have hndtake : ((S.take n).map Prod.snd).Nodup :=
    hnodupS.sublist ((List.take_sublist n S).map Prod.snd)
  refine ⟨?_, ?_, hndtake, ?_, ?_⟩
  · rw [List.length_take, hslen]
    omega
  · intro p hp
    exact hmemS p (List.take_subset n S hp)
  · have hpw : List.Pairwise rankLe (S.take n) :=
      List.Pairwise.sublist (List.take_sublist n S) hsorted
    have hne : List.Pairwise (fun a b : ℚ × Nat => a.2 ≠ b.2) (S.take n) :=
      (List.pairwise_map).1 hndtake
    refine ((hpw.and hne).imp ?_).chain'
    intro a b hab
    rcases hab.1 with h | h
    · exact Or.inl h
    · exact Or.inr ⟨h.1, Nat.lt_of_le_of_ne h.2 hab.2⟩
  · intro j hj hjne
    have hxS : (dot qv (index.getD j []), j) ∈ S := by
      apply hperm.mem_iff.2
      rw [hsc]
      exact List.mem_map.2 ⟨(j, index.getD j []), getD_mem_enum index j hj, rfl⟩
    have hxdrop : (dot qv (index.getD j []), j) ∈ S.drop n := by
      have hxS2 : (dot qv (index.getD j []), j) ∈ S.take n ++ S.drop n := by
        rw [List.take_append_drop]
        exact hxS
      rcases List.mem_append.1 hxS2 with h | h
      · exact absurd rfl (hjne _ h)
      · exact h
    have hnlt : n < index.length := by
      have h0 : 0 < (S.drop n).length := List.length_pos_of_mem hxdrop
      rw [List.length_drop, hslen] at h0
      omega
    refine ⟨hnlt, ?_⟩
    intro p hp
    have hpw2 : List.Pairwise rankLe (S.take n ++ S.drop n) := by
      rw [List.take_append_drop]
      exact hsorted
    exact (List.pairwise_append.1 hpw2).2.2 p hp _ hxdrop

/-- C2: for every store satisfying the lockstep invariant, every non-blank
query and every k at least 1, search returns exactly min(k, entry count)
results — all entries when k exceeds the count, and the empty sequence on
an empty index — and the results are the metadata records of the best
entries, ranked by strictly descending inner-product score with ties broken
by insertion order, earliest first.  (The faiss flat-index search itself is
external and is modelled from the spec.) -/
theorem search_ranked (embed : PyStr → Vec) (st : Store) (query : PyStr) (k : Nat)
    (hmeta : st.meta.length = st.index.length) (hk : 1 ≤ k)
    (hq : isBlankL query = false) :
    (st.search embed query k).length = min k st.index.length ∧
    (st.index.length ≤ k → (st.search embed query k).length = st.index.length) ∧
    (st.index = [] → st.search embed query k = []) ∧
    ∃ pairs : List (ℚ × Nat),
      st.search embed query k =
        pairs.map (fun p => dictSet (st.meta.getD p.2 []) keyScore (MVal.rat p.1)) ∧
      pairs.length = min k st.index.length ∧
      (∀ p ∈ pairs, p.2 < st.index.length ∧
        p.1 = dot (embed query) (st.index.getD p.2 [])) ∧
      (pairs.map Prod.snd).Nodup ∧
      List.Chain' rankLt pairs ∧
      (∀ j, j < st.index.length → (∀ p ∈ pairs, p.2 ≠ j) →
        pairs.length = k ∧
        ∀ p ∈ pairs, rankLe p (dot (embed query) (st.index.getD j []), j)) := by
  by_cases hm : st.index.length = 0
  · have hs : st.search embed query k = [] := by
      unfold Store.search
      rw [if_pos hm]
    refine ⟨by rw [hs, hm]; simp, fun _ => by rw [hs, hm]; simp, fun _ => hs,
      [], by rw [hs]; rfl, by rw [hm]; simp, by simp, by simp, by simp,
      fun j hj => absurd hj (by omega)⟩
  · have hq' : ¬isBlankL query = true := by
      rw [hq]
      exact Bool.false_ne_true
    have hsearch : st.search embed query k =
        (faissTopK st.index (embed query) (min k st.index.length)).filterMap
          (fun p => match st.meta[p.2]? with
            | some m2 => some (dictSet m2 keyScore (MVal.rat p.1))
            | none => none) := by
      unfold Store.search
      rw [if_neg hm, if_neg hq']
    obtain ⟨hL, hMem, hNd, hCh, hComp⟩ :=
      faissTopK_spec st.index (embed query) (min k st.index.length) (Nat.min_le_right _ _)
    have hfg : ∀ p ∈ faissTopK st.index (embed query) (min k st.index.length),
        (fun p : ℚ × Nat => match st.meta[p.2]? with
          | some m2 => some (dictSet m2 keyScore (MVal.rat p.1))
          | none => none) p =
        some (dictSet (st.meta.getD p.2 []) keyScore (MVal.rat p.1)) := by
      intro p hp
      have hlt : p.2 < st.meta.length := by
        rw [hmeta]
        exact (hMem p hp).1
      have hD : st.meta.getD p.2 [] = st.meta[p.2] := by
        rw [List.getD_eq_getElem?_getD, List.getElem?_eq_getElem hlt]
        rfl
      show (match st.meta[p.2]? with
        | some m2 => some (dictSet m2 keyScore (MVal.rat p.1))
        | none => none) = some (dictSet (st.meta.getD p.2 []) keyScore (MVal.rat p.1))
      rw [List.getElem?_eq_getElem hlt, hD]
    have hRes : st.search embed query k =
        (faissTopK st.index (embed query) (min k st.index.length)).map
          (fun p => dictSet (st.meta.getD p.2 []) keyScore (MVal.rat p.1)) := by
      rw [hsearch]
      exact filterMap_eq_map_of_some _ _ _ hfg
    refine ⟨?_, ?_, ?_,
      faissTopK st.index (embed query) (min k st.index.length),
      hRes, hL, hMem, hNd, hCh, ?_⟩
    · rw [hRes, List.length_map, hL]
    · intro h
      rw [hRes, List.length_map, hL]
      omega
    · intro h
      exact absurd (by rw [h]; rfl) hm
    · intro j hj hjne
      obtain ⟨hlt, hall⟩ := hComp j hj hjne
      exact ⟨by rw [hL]; omega, hall⟩

/-- Witness for C2 on a concrete two-vector store with k equal 1. -/
theorem search_ranked_witness :
    (stTwo.meta.length = stTwo.index.length ∧ 1 ≤ 1 ∧ isBlankL ['h', 'i'] = false) ∧
    (stTwo.search embedLen ['h', 'i'] 1).length = min 1 stTwo.index.length :=
  ⟨⟨by decide, by decide, by decide⟩,
   (search_ranked embedLen stTwo ['h', 'i'] 1 (by decide) (by decide) (by decide)).1⟩

theorem bmono_nil (lo hi : Nat) : BMono lo hi [] :=
  ⟨List.chain'_nil, by simp⟩

theorem bmono_single (lo hi p : Nat) (h1 : lo ≤ p) (h2 : p ≤ hi) : BMono lo hi [p] :=
  ⟨List.chain'_singleton p, by simp [h1, h2]⟩

theorem bmono_weaken {lo hi lo' hi' : Nat} {evs : List Nat} (h : BMono lo hi evs)
    (hl : lo' ≤ lo) (hh : hi ≤ hi') : BMono lo' hi' evs :=
  ⟨h.1, fun p hp => ⟨le_trans hl (h.2 p hp).1, le_trans (h.2 p hp).2 hh⟩⟩

theorem bmono_cons {lo hi p : Nat} {evs : List Nat} (hp1 : lo ≤ p) (hp2 : p ≤ hi)
    (h : BMono p hi evs) : BMono lo hi (p :: evs) := by
  refine ⟨List.chain'_cons'.2 ⟨?_, h.1⟩, ?_⟩
  · intro y hy
    exact (h.2 y (List.mem_of_mem_head? hy)).1
  · intro x hx
    rcases List.mem_cons.1 hx with rfl | hx
    · exact ⟨hp1, hp2⟩
    · exact ⟨le_trans hp1 (h.2 x hx).1, (h.2 x hx).2⟩

theorem bmono_append {lo1 hi1 lo2 hi2 : Nat} {l1 l2 : List Nat}
    (h1 : BMono lo1 hi1 l1) (h2 : BMono lo2 hi2 l2)
    (hmid : hi1 ≤ lo2) (hlo : lo1 ≤ lo2) (hhi : hi1 ≤ hi2) :
    BMono lo1 hi2 (l1 ++ l2) := by
  refine ⟨List.Chain'.append h1.1 h2.1 ?_, ?_⟩
  · intro x hx y hy
    rcases List.mem_getLast?_eq_getLast hx with ⟨hne, rfl⟩
    have hx2 := h1.2 _ (List.getLast_mem hne)
    have hy2 := h2.2 y (List.mem_of_mem_head? hy)
    omega
  · intro x hx
    rcases List.mem_append.1 hx with hx | hx
    · have := h1.2 x hx
      omega
    · have := h2.2 x hx
      omega

theorem bmono_range' (f : Nat → Nat) (hf : Monotone f) (hi : Nat) :
    ∀ (cnt start : Nat), (∀ i, i < start + cnt → f i ≤ hi) →
      BMono (f start) hi ((List.range' start cnt).map f) := by
  intro cnt
  induction cnt with
  | zero => intro start _; exact bmono_nil _ hi
  | succ c ih =>
    intro start hhi
    rw [List.range'_succ, List.map_cons]
    refine bmono_cons le_rfl (hhi start (by omega)) ?_
    exact bmono_weaken (ih (start + 1) (fun i hi2 => hhi i (by omega)))
      (hf (Nat.le_succ start)) le_rfl

theorem batchEvs_bmono (n : Nat) (hn : 0 < n) : BMono 65 79 (batchEvs n) := by
  unfold batchEvs
  have hdrop : (List.range ((n + 99) / 100)).drop 1 =
      List.range' 1 ((n + 99) / 100 - 1) := by
    cases h : (n + 99) / 100 with
    | zero => rfl
    | succ k =>
      rw [List.range_eq_range', List.range'_succ]
      simp
  rw [hdrop]
  have hmono : Monotone (fun j => 65 + (j * 100 * 15) / n) := by
    apply monotone_nat_of_le_succ
    intro j
    have h1 : j * 100 * 15 ≤ (j + 1) * 100 * 15 := by nlinarith
    have := Nat.div_le_div_right (c := n) h1
    omega
  have hb : BMono ((fun j => 65 + (j * 100 * 15) / n) 1) 79
      ((List.range' 1 ((n + 99) / 100 - 1)).map (fun j => 65 + (j * 100 * 15) / n)) := by
    apply bmono_range' _ hmono 79
    intro i hi
    have hik : i ≤ (n + 99) / 100 - 1 := by omega
    have hK : ((n + 99) / 100 - 1) * 100 < n := by
      have h1 : (n + 99) / 100 * 100 ≤ n + 99 := Nat.div_mul_le_self (n + 99) 100
      have h2 : 0 < (n + 99) / 100 := by
        apply Nat.div_pos
        · omega
        · omega
      omega
    have hi100 : i * 100 < n := by
      have : i * 100 ≤ ((n + 99) / 100 - 1) * 100 := Nat.mul_le_mul_right 100 hik
      omega
    have hlt : i * 100 * 15 < 15 * n := by omega
    have : i * 100 * 15 / n < 15 := (Nat.div_lt_iff_lt_mul hn).2 hlt
    omega
  exact bmono_weaken hb (Nat.le_add_right 65 _) le_rfl

theorem extractLoop_evs (total : Nat) (htot : 0 < total) :
    ∀ (ps : List PageSrc) (pno : Nat), pno + ps.length ≤ total →
      BMono (10 + (pno * 30) / total) 39 (extractLoop total pno ps).2 := by
  intro ps
  induction ps with
  | nil => intro pno _; exact bmono_nil _ _
  | cons p rest ih =>
    intro pno h
    have hlen : pno + (rest.length + 1) ≤ total := by simpa using h
    have hpno : pno < total := by omega
    have hpp : 10 + (pno * 30) / total ≤ 39 := by
      have h1 : pno * 30 < 30 * total := by nlinarith
      have h2 : (pno * 30) / total < 30 := (Nat.div_lt_iff_lt_mul htot).2 h1
      omega
    have hmono2 : (pno * 30) / total ≤ ((pno + 1) * 30) / total :=
      Nat.div_le_div_right (by omega)
    have hrec' : BMono (10 + (pno * 30) / total) 39 (extractLoop total (pno + 1) rest).2 :=
      bmono_weaken (ih (pno + 1) (by omega)) (by omega) le_rfl
    by_cases hb : isBlankL p.text = true
    · have heq : (extractLoop total pno (p :: rest)).2 =
          (10 + (pno * 30) / total) :: (10 + (pno * 30) / total) ::
            (extractLoop total (pno + 1) rest).2 := by
        simp [extractLoop, hb]
      rw [heq]
      exact bmono_cons le_rfl hpp (bmono_cons le_rfl hpp hrec')
    · have heq : (extractLoop total pno (p :: rest)).2 =
          (10 + (pno * 30) / total) :: (extractLoop total (pno + 1) rest).2 := by
        simp [extractLoop, hb]
      rw [heq]
      exact bmono_cons le_rfl hpp hrec'

theorem chunkLoop_evs (total maxChars : Nat) :
    ∀ (pt : List (PyStr × Nat)) (idx : Nat), idx + pt.length ≤ total →
      BMono (40 + ((idx + 1) * 8) / total) 48 (chunkLoop total maxChars idx pt).2 := by
  intro pt
  induction pt with
  | nil => intro idx _; exact bmono_nil _ _
  | cons pp rest ih =>
    intro idx h
    obtain ⟨ptext, pnum⟩ := pp
    have hlen : idx + (rest.length + 1) ≤ total := by simpa using h
    have hbound : 40 + ((idx + 1) * 8) / total ≤ 48 := by
      by_cases h0 : total = 0
      · rw [h0]
        simp
      · have htot : 0 < total := Nat.pos_of_ne_zero h0
        have h1 : idx + 1 ≤ total := by omega
        have h2 : (idx + 1) * 8 ≤ total * 8 := Nat.mul_le_mul_right 8 h1
        have h3 : ((idx + 1) * 8) / total ≤ (total * 8) / total := Nat.div_le_div_right h2
        have h4 : total * 8 / total = 8 := by
          rw [Nat.mul_comm]
          exact Nat.mul_div_cancel 8 htot
        omega
    have hmono2 : ((idx + 1) * 8) / total ≤ ((idx + 1 + 1) * 8) / total :=
      Nat.div_le_div_right (by omega)
    have hrec' : BMono (40 + ((idx + 1) * 8) / total) 48
        (chunkLoop total maxChars (idx + 1) rest).2 :=
      bmono_weaken (ih (idx + 1) (by omega)) (by omega) le_rfl
    by_cases hm : (idx + 1) % 10 = 0
    · have heq : (chunkLoop total maxChars idx ((ptext, pnum) :: rest)).2 =
          (40 + ((idx + 1) * 8) / total) :: (chunkLoop total maxChars (idx + 1) rest).2 := by
        simp [chunkLoop, hm]
      rw [heq]
      exact bmono_cons le_rfl hbound hrec'
    · have heq : (chunkLoop total maxChars idx ((ptext, pnum) :: rest)).2 =
          (chunkLoop total maxChars (idx + 1) rest).2 := by
        simp [chunkLoop, hm]
      rw [heq]
      exact hrec'

theorem add_batch_evs (embed : PyStr → Vec) (st : Store) (chunks : List PyStr)
    (mds : List Md) (st2 : Store) (evs : List Nat)
    (h : st.add_batch embed chunks mds = .ok (st2, evs)) : BMono 65 90 evs := by
  unfold Store.add_batch at h
  by_cases h1 : chunks = [] ∨ chunks.length ≠ mds.length
  · rw [if_pos h1] at h
    simp only [Except.ok.injEq, Prod.mk.injEq] at h
    rw [← h.2]
    exact bmono_nil 65 90
  · rw [if_neg h1] at h
    by_cases h2 : (chunks.zip mds).filter (fun p => !isBlankL p.1) = []
    · rw [if_pos h2] at h
      simp only [Except.ok.injEq, Prod.mk.injEq] at h
      rw [← h.2]
      exact bmono_nil 65 90
    · rw [if_neg h2] at h
      simp only [Except.ok.injEq, Prod.mk.injEq] at h
      rw [← h.2]
      have hn : 0 < ((chunks.zip mds).filter (fun p => !isBlankL p.1)).length :=
        List.length_pos.2 h2
      have hb1 : BMono 65 65 [65] := bmono_single _ _ _ le_rfl le_rfl
      have hb2 := batchEvs_bmono _ hn
      have hb3 : BMono 80 90 [80, 85, 90] :=
        bmono_cons le_rfl (by omega)
          (bmono_cons (by omega) (by omega) (bmono_single _ _ _ (by omega) le_rfl))
      exact bmono_append (bmono_append hb1 hb2 le_rfl le_rfl (by omega)) hb3
        (by omega) (by omega) (by omega)

/-- C8: within one successful ingestion run, the sequence of percentages
delivered to the progress callback is monotonically non-decreasing and
every percentage lies between 0 and 100. -/
theorem ingest_progress_monotone (embed : PyStr → Vec) (st : Store)
    (pages : List PageSrc) (bookId bookTitle source : PyStr) (st2 : Store)
    (evs : List Nat)
    (h : ingest_pdf embed st pages bookId bookTitle source = .ok (st2, evs)) :
    List.Chain' (fun a b => a ≤ b) evs ∧ ∀ p ∈ evs, p ≤ 100 := by
  unfold ingest_pdf at h
  dsimp only [] at h
  split at h
  · exact absurd h (by simp)
  · rename_i hemp
    split at h
    · exact absurd h (by simp)
    · rename_i st3 abEvs heq
      simp only [Except.ok.injEq, Prod.mk.injEq] at h
      have hevs := h.2
      have hpages : pages ≠ [] := by
        intro hp
        apply hemp
        rw [hp]
        rfl
      have htot : 0 < pages.length := List.length_pos.2 hpages
      have hA : BMono 10 39 (extractLoop pages.length 0 pages).2 := by
        have := extractLoop_evs pages.length htot pages 0 (by omega)
        simpa using this
      have hB : BMono 40 48
          (chunkLoop (extractLoop pages.length 0 pages).1.length 800 0
            (extractLoop pages.length 0 pages).1).2 := by
        have := chunkLoop_evs (extractLoop pages.length 0 pages).1.length 800
          (extractLoop pages.length 0 pages).1 0 (by omega)
        exact bmono_weaken this (Nat.le_add_right 40 _) le_rfl
      have hC : BMono 65 90 abEvs := add_batch_evs embed st _ _ st3 abEvs heq
      have hE90 : BMono 90 95 [90, 90, 95] :=
        bmono_cons le_rfl (by omega)
          (bmono_cons le_rfl (by omega) (bmono_single _ _ _ (by omega) le_rfl))
      have h5060 : BMono 50 60 [50, 60] :=
        bmono_cons le_rfl (by omega) (bmono_single _ _ _ (by omega) le_rfl)
      have hs1 : BMono 10 40 ((extractLoop pages.length 0 pages).2 ++ [40]) :=
        bmono_append hA (bmono_single 40 40 40 le_rfl le_rfl)
          (by omega) (by omega) (by omega)
      have hs2 : BMono 10 48 (((extractLoop pages.length 0 pages).2 ++ [40]) ++
          (chunkLoop (extractLoop pages.length 0 pages).1.length 800 0
            (extractLoop pages.length 0 pages).1).2) :=
        bmono_append hs1 hB (by omega) (by omega) (by omega)
      have hs3 : BMono 10 48 ([10] ++ (((extractLoop pages.length 0 pages).2 ++ [40]) ++
          (chunkLoop (extractLoop pages.length 0 pages).1.length 800 0
            (extractLoop pages.length 0 pages).1).2)) :=
        bmono_append (bmono_single 10 10 10 le_rfl le_rfl) hs2 le_rfl le_rfl (by omega)
      have hs4 := bmono_append hs3 h5060 (by omega) (by omega) (by omega)
      have hs5 := bmono_append hs4 hC (by omega) (by omega) (by omega)
      have hs6 := bmono_append hs5 hE90 (by omega) (by omega) (by omega)
      have hshape : evs = (((([10] ++
          (((extractLoop pages.length 0 pages).2 ++ [40]) ++
            (chunkLoop (extractLoop pages.length 0 pages).1.length 800 0
              (extractLoop pages.length 0 pages).1).2)) ++
          [50, 60]) ++ abEvs) ++ [90, 90, 95]) := by
        rw [← hevs]
        rfl
      rw [hshape]
      refine ⟨hs6.1, fun p hp => ?_⟩
      have := (hs6.2 p hp).2
      omega

/-- Witness for C8: a concrete one-page ingestion run and its percentage
sequence. -/
theorem ingest_progress_monotone_witness :
    ingest_pdf embedOne emptyStore [pgW] bidW btW srcW = .ok (stW8, evW8) ∧
    (List.Chain' (fun a b => a ≤ b) evW8 ∧ ∀ p ∈ evW8, p ≤ 100) :=
  ⟨by rfl,
   ingest_progress_monotone embedOne emptyStore [pgW] bidW btW srcW stW8 evW8 (by rfl)⟩
